import Mathlib

/-!
Verification of the podcast-playlist scripts: a shallow embedding of the
episode-search, dedup/merge-refresh, playlist-write and error-dispatch logic
of scripts/podcast_playlist.py and scripts/spotify_client.py, with theorems
settling the specified properties.
-/

namespace Playlister

open scoped List

/-- A Spotify episode object, restricted to the fields the scripts read:
its uri, release_date and release_date_precision, each possibly absent
as in a JSON dict. -/
structure Episode where
  uri : Option String
  release_date : Option String
  release_date_precision : Option String
deriving DecidableEq

/-- An entry of the candidate batch built by cmd_refresh: a dict
`{"topic": topic, "ep": ep}` (podcast_playlist.py:183,197). -/
structure TaggedEp where
  topic : String
  ep : Episode
deriving DecidableEq

/-- The URI list of a batch: `[x["ep"]["uri"] for x in all_eps]`
(podcast_playlist.py:206); entries with an absent uri contribute nothing. -/
def batchUris (l : List TaggedEp) : List String :=
  l.filterMap (fun t => t.ep.uri)

/-- The merge-refresh diff of cmd_refresh (podcast_playlist.py:216-217):
`existing_set = set(existing_uris)` and
`new_uris = [u for u in uris if u not in existing_set]`;
membership in the set equals membership in the snapshot list. -/
def new_uris (uris existing_uris : List String) : List String :=
  uris.filter (fun u => decide (u ∉ existing_uris))

/-- One playlist write request issued by spotify_client: a PUT replacing all
items, a POST appending items, or a POST inserting items at a position. -/
inductive WriteCall where
  | replace (uris : List String)
  | append (uris : List String)
  | insertAt (position : Nat) (uris : List String)
deriving DecidableEq

/-- Provider semantics of one write call on the playlist contents, per the
external playlist-provider interface: replace sets the contents, append adds
at the end, and an insert at a position splices the chunk in at that index. -/
def applyCall (pl : List String) : WriteCall → List String
  | .replace uris => uris
  | .append uris => pl ++ uris
  | .insertAt pos uris => pl.take pos ++ uris ++ pl.drop pos

/-- Effect of a sequence of write calls on playlist contents. -/
def applyCalls (calls : List WriteCall) (pl : List String) : List String :=
  calls.foldl applyCall pl

/-- The loop of prepend_items (spotify_client.py:233-240):
`for i in range(0, len(uris), 100): POST {"uris": uris[i:i+100], "position": i}`,
started at position i. -/
def prependChunks (l : List String) (i : Nat) : List WriteCall :=
  match l with
  | [] => []
  | u :: rest =>
      WriteCall.insertAt i ((u :: rest).take 100) :: prependChunks (rest.drop 99) (i + 100)
termination_by l.length
decreasing_by simp [List.length_drop]; omega

/-- prepend_items (spotify_client.py:233-240) as the write calls it issues. -/
def prepend_items (uris : List String) : List WriteCall :=
  prependChunks uris 0

/-- The tail loop of set_playlist_items (spotify_client.py:212-213):
`for i in range(100, len(uris), 100): POST {"uris": uris[i:i+100]}`,
given the slice of uris from index 100 on. -/
def appendChunks (l : List String) : List WriteCall :=
  match l with
  | [] => []
  | u :: rest => WriteCall.append ((u :: rest).take 100) :: appendChunks (rest.drop 99)
termination_by l.length
decreasing_by simp [List.length_drop]; omega

/-- set_playlist_items (spotify_client.py:205-213) as the write calls it
issues: an empty uri list still issues one PUT with an empty list; otherwise
a PUT with the first 100 uris then POSTs for each later chunk of 100. -/
def set_playlist_items (uris : List String) : List WriteCall :=
  if uris = [] then [WriteCall.replace []]
  else WriteCall.replace (uris.take 100) :: appendChunks (uris.drop 100)

/-- Whether a write call is a replace (PUT) call. -/
def isReplace : WriteCall → Bool
  | .replace _ => true
  | .append _ => false
  | .insertAt _ _ => false

/-- The fixed playlist name of cmd_refresh (podcast_playlist.py:165). -/
def playlist_name : String := "Daily Playlister"

/-- The create_playlist request body (spotify_client.py:194-202). -/
structure CreateCall where
  name : String
  description : String
  public : Bool
deriving DecidableEq

/-- The create branch of cmd_refresh (podcast_playlist.py:227-228):
`public = cfg["playlist_visibility"] == "public"` and
`create_playlist(token, playlist_name, desc, public)`. -/
def refresh_create_call (visibility desc : String) : CreateCall :=
  { name := playlist_name, description := desc, public := visibility == "public" }

/-- The sort key of _sort_by_recency (spotify_client.py:132-139): the
release_date (default empty string), extended to a full date when the
precision (default day) is year or month and the date has the matching
length. -/
def sortKey (ep : Episode) : String :=
  let rd := ep.release_date.getD ""
  let prec := ep.release_date_precision.getD "day"
  if prec = "year" ∧ rd.length = 4 then rd ++ "-01-01"
  else if prec = "month" ∧ rd.length = 7 then rd ++ "-01"
  else rd

/-- _sort_by_recency (spotify_client.py:130-140): Python's
`sorted(episodes, key=_key, reverse=True)` is a stable sort placing larger
keys first, here a stable merge sort with comparison key b ≤ key a. -/
def sortByRecency (episodes : List Episode) : List Episode :=
  episodes.mergeSort (fun a b => decide (sortKey b ≤ sortKey a))

/-- The fetch limit of search_episodes (spotify_client.py:155):
`min(limit * 3, 50) if sort_by == "recency" else min(limit, 50)`. -/
def fetch_limit (limit : Nat) (sort_by : String) : Nat :=
  if sort_by = "recency" then min (limit * 3) 50 else min limit 50

/-- search_episodes (spotify_client.py:143-165) applied to the items of a
provider response: falsy (null) items are dropped, the list is sorted when
sort_by is recency, and the first limit entries are returned. -/
def search_episodes (limit : Nat) (sort_by : String) (items : List (Option Episode)) :
    List Episode :=
  let episodes := items.filterMap id
  let episodes2 := if sort_by = "recency" then sortByRecency episodes else episodes
  episodes2.take limit

/-- The uri u counts as surfaced by the result list eps when some episode of
eps carries it and it is truthy (Python `if uri` is false for an absent or
empty uri, podcast_playlist.py:194-195). -/
def truthyIn (u : String) (eps : List Episode) : Prop :=
  u ≠ "" ∧ ∃ ep ∈ eps, ep.uri = some u

instance (u : String) (eps : List Episode) : Decidable (truthyIn u eps) := by
  unfold truthyIn; infer_instance

/-- The inner episode loop of the individual strategy
(podcast_playlist.py:192-200): for each episode, if its uri is truthy and
unseen it is recorded and appended to the batch; after per_topic additions
the loop breaks. -/
def individualStep (per_topic : Nat) (topic : String) :
    List Episode → List String → List TaggedEp → Nat → List String × List TaggedEp
  | [], seen, acc, _ => (seen, acc)
  | ep :: rest, seen, acc, added =>
    match ep.uri with
    | none => individualStep per_topic topic rest seen acc added
    | some u =>
      if u ≠ "" ∧ u ∉ seen then
        if added + 1 ≥ per_topic then (u :: seen, acc ++ [⟨topic, ep⟩])
        else individualStep per_topic topic rest (u :: seen) (acc ++ [⟨topic, ep⟩]) (added + 1)
      else individualStep per_topic topic rest seen acc added

/-- The topic loop of the individual strategy (podcast_playlist.py:187-201),
with each topic's search results given as a list. -/
def individualLoop (per_topic : Nat) :
    List (String × List Episode) → List String → List TaggedEp → List TaggedEp
  | [], _, acc => acc
  | (topic, eps) :: rest, seen, acc =>
      individualLoop per_topic rest
        (individualStep per_topic topic eps seen acc 0).1
        (individualStep per_topic topic eps seen acc 0).2

/-- The candidate batch built by cmd_refresh in individual mode
(podcast_playlist.py:186-201), starting from an empty seen set and batch. -/
def individualBatch (per_topic : Nat) (results : List (String × List Episode)) :
    List TaggedEp :=
  individualLoop per_topic results [] []

/-- The episode loop of the combined strategy (podcast_playlist.py:179-183):
every episode with a truthy unseen uri is appended, tagged "combined". -/
def combinedLoop : List Episode → List String → List TaggedEp → List TaggedEp
  | [], _, acc => acc
  | ep :: rest, seen, acc =>
    match ep.uri with
    | none => combinedLoop rest seen acc
    | some u =>
      if u ≠ "" ∧ u ∉ seen then combinedLoop rest (u :: seen) (acc ++ [⟨"combined", ep⟩])
      else combinedLoop rest seen acc

/-- The candidate batch built by cmd_refresh in combined mode
(podcast_playlist.py:171-184). -/
def combinedBatch (episodes : List Episode) : List TaggedEp :=
  combinedLoop episodes [] []

/-- Concrete episode with uri x, used to evaluate the batch builder. -/
def epX : Episode := ⟨some "x", none, none⟩

/-- Concrete episode with uri y, used to evaluate the batch builder. -/
def epY : Episode := ⟨some "y", none, none⟩

/-- Substring occurrence on character lists: sub occurs in the list when it
is a prefix of some suffix. -/
def containsSub : List Char → List Char → Bool
  | [], sub => sub.isEmpty
  | c :: rest, sub => sub.isPrefixOf (c :: rest) || containsSub rest sub

/-- Python's substring test `pat in s`. -/
def strContains (s pat : String) : Bool :=
  containsSub s.data pat.data

/-- The message built by _spotify_error (spotify_client.py:71-80):
"Spotify {code} on {method} {path}" plus ": {detail}" when the
provider-supplied detail is nonempty (detail is "" when the error body
cannot be parsed). -/
def spotify_error_msg (code : Nat) (method path detail : String) : String :=
  "Spotify " ++ toString code ++ " on " ++ method ++ " " ++ path
    ++ (if detail ≠ "" then ": " ++ detail else "")

/-- The allowlist remediation text appended by cmd_refresh
(podcast_playlist.py:234-244). -/
def remediation_text : String :=
  "\n\n403 Forbidden means your Spotify account is not on the app's allowlist.\n" ++
  "Fix (takes 1 minute):\n" ++
  "  1. Go to developer.spotify.com/dashboard\n" ++
  "  2. Select your app → Settings → Users Management tab\n" ++
  "  3. Click 'Add new user' and enter your Spotify account's name and email\n" ++
  "  4. Then retry 'refresh'\n\n" ++
  "Note: Development mode apps require every user (including yourself as the owner)\n" ++
  "to be explicitly added to the allowlist before API write calls will succeed."

/-- How cmd_refresh disposes of a wrapped provider error. -/
inductive RefreshErrorOutcome where
  | allowlistExit (msg : String)
  | propagate (msg : String)
deriving DecidableEq

/-- The error dispatch of cmd_refresh (podcast_playlist.py:231-245): the
RuntimeError message from _spotify_error is checked for the substring "403";
on a hit the run exits with the remediation message, otherwise the error is
re-raised unchanged. -/
def refresh_error_outcome (code : Nat) (method path detail : String) :
    RefreshErrorOutcome :=
  let msg := spotify_error_msg code method path detail
  if strContains msg "403" then
    RefreshErrorOutcome.allowlistExit ("Error: " ++ msg ++ remediation_text)
  else RefreshErrorOutcome.propagate msg

/-- The body of update_playlist_details (spotify_client.py:243-253): each
field is present exactly when the corresponding argument is not None. -/
structure UpdateBody where
  name : Option String
  description : Option String
deriving DecidableEq

/-- update_playlist_details (spotify_client.py:243-253): the PUT body carries
the fields passed as non-None; no request is issued when the body is empty. -/
def update_playlist_details (name description : Option String) : Option UpdateBody :=
  if name = none ∧ description = none then none
  else some ⟨name, description⟩

/-- The metadata update issued by cmd_refresh for an existing playlist
(podcast_playlist.py:223): only description is passed. -/
def refresh_update_call (desc : String) : Option UpdateBody :=
  update_playlist_details none (some desc)

/-- Playlist metadata held by the provider. -/
structure PlaylistMeta where
  name : String
  description : String

/-- Modelled from the spec: provider semantics of the updateDetails call of
the external playlist-provider interface — a field absent from the request
body is left unchanged. -/
def applyUpdate (m : PlaylistMeta) : Option UpdateBody → PlaylistMeta
  | none => m
  | some b => { name := b.name.getD m.name, description := b.description.getD m.description }

/-! ## Helper lemmas -/

lemma prependChunks_nil (i : Nat) : prependChunks [] i = [] := by
  rw [prependChunks]

lemma prependChunks_cons (u : String) (rest : List String) (i : Nat) :
    prependChunks (u :: rest) i
      = WriteCall.insertAt i ((u :: rest).take 100)
          :: prependChunks (rest.drop 99) (i + 100) := by
  rw [prependChunks]

lemma appendChunks_nil : appendChunks [] = [] := by
  rw [appendChunks]

lemma appendChunks_cons (u : String) (rest : List String) :
    appendChunks (u :: rest)
      = WriteCall.append ((u :: rest).take 100) :: appendChunks (rest.drop 99) := by
  rw [appendChunks]

lemma applyCalls_cons (c : WriteCall) (cs : List WriteCall) (pl : List String) :
    applyCalls (c :: cs) pl = applyCalls cs (applyCall pl c) := rfl

lemma applyCalls_prependChunks :
    ∀ (n : Nat) (uris pre pl : List String), uris.length ≤ n →
      applyCalls (prependChunks uris pre.length) (pre ++ pl) = pre ++ (uris ++ pl) := by
  intro n
  induction n with
  | zero =>
    intro uris pre pl h
    have hl : uris = [] := List.eq_nil_of_length_eq_zero (Nat.le_zero.mp h)
    subst hl
    simp [prependChunks_nil, applyCalls]
  | succ n ih =>
    intro uris pre pl h
    match uris with
    | [] => simp [prependChunks_nil, applyCalls]
    | u :: rest =>
      rw [prependChunks_cons, applyCalls_cons]
      have happly : applyCall (pre ++ pl) (WriteCall.insertAt pre.length ((u :: rest).take 100))
          = (pre ++ (u :: rest).take 100) ++ pl := by
        simp [applyCall, List.take_left, List.drop_left, List.append_assoc]
      rw [happly]
      by_cases hle : rest.length ≤ 99
      · have hdrop : rest.drop 99 = [] := List.drop_eq_nil_of_le (by omega)
        have htake : (u :: rest).take 100 = u :: rest :=
          List.take_of_length_le (by simp; omega)
        rw [hdrop, prependChunks_nil]
        simp [applyCalls, htake, List.append_assoc]
      · push_neg at hle
        have hpre : pre.length + 100 = (pre ++ (u :: rest).take 100).length := by
          simp [List.length_append, List.length_take]
          omega
        rw [hpre]
        have hrlen : (rest.drop 99).length ≤ n := by
          have hh : rest.length + 1 ≤ n + 1 := by simpa using h
          simp [List.length_drop]
          omega
        rw [ih (rest.drop 99) (pre ++ (u :: rest).take 100) pl hrlen]
        have hchunk : (u :: rest).take 100 ++ rest.drop 99 = u :: rest := by
          have hd : rest.drop 99 = (u :: rest).drop 100 := (List.drop_succ_cons).symm
          rw [hd, List.take_append_drop]
        conv_rhs => rw [← hchunk]
        simp only [List.append_assoc]

lemma applyCalls_prepend_items (uris pl : List String) :
    applyCalls (prepend_items uris) pl = uris ++ pl := by
  have h := applyCalls_prependChunks uris.length uris [] pl (Nat.le_refl _)
  simpa [prepend_items] using h

lemma applyCalls_appendChunks :
    ∀ (n : Nat) (l pl : List String), l.length ≤ n →
      applyCalls (appendChunks l) pl = pl ++ l := by
  intro n
  induction n with
  | zero =>
    intro l pl h
    have hl : l = [] := List.eq_nil_of_length_eq_zero (Nat.le_zero.mp h)
    subst hl
    simp [appendChunks_nil, applyCalls]
  | succ n ih =>
    intro l pl h
    match l with
    | [] => simp [appendChunks_nil, applyCalls]
    | u :: rest =>
      rw [appendChunks_cons, applyCalls_cons]
      have happly : applyCall pl (WriteCall.append ((u :: rest).take 100))
          = pl ++ (u :: rest).take 100 := by
        simp [applyCall]
      rw [happly]
      by_cases hle : rest.length ≤ 99
      · have hdrop : rest.drop 99 = [] := List.drop_eq_nil_of_le (by omega)
        have htake : (u :: rest).take 100 = u :: rest :=
          List.take_of_length_le (by simp; omega)
        rw [hdrop, appendChunks_nil]
        simp [applyCalls, htake]
      · push_neg at hle
        have hrlen : (rest.drop 99).length ≤ n := by
          have hh : rest.length + 1 ≤ n + 1 := by simpa using h
          simp [List.length_drop]
          omega
        rw [ih (rest.drop 99) (pl ++ (u :: rest).take 100) hrlen]
        have hchunk : (u :: rest).take 100 ++ rest.drop 99 = u :: rest := by
          have hd : rest.drop 99 = (u :: rest).drop 100 := (List.drop_succ_cons).symm
          rw [hd, List.take_append_drop]
        conv_rhs => rw [← hchunk]
        simp only [List.append_assoc]

lemma applyCalls_set_playlist_items (uris pl : List String) :
    applyCalls (set_playlist_items uris) pl = uris := by
  by_cases h : uris = []
  · subst h
    rfl
  · rw [set_playlist_items, if_neg h, applyCalls_cons]
    have happly : applyCall pl (WriteCall.replace (uris.take 100)) = uris.take 100 := rfl
    rw [happly, applyCalls_appendChunks (uris.drop 100).length _ _ (Nat.le_refl _),
      List.take_append_drop]

lemma prependChunks_eq_range :
    ∀ (n : Nat) (l : List String) (i : Nat), l.length ≤ n →
      prependChunks l i = (List.range ((l.length + 99) / 100)).map
        (fun k => WriteCall.insertAt (i + 100 * k) ((l.drop (100 * k)).take 100)) := by
  intro n
  induction n with
  | zero =>
    intro l i h
    have hl : l = [] := List.eq_nil_of_length_eq_zero (Nat.le_zero.mp h)
    subst hl
    simp [prependChunks_nil]
  | succ n ih =>
    intro l i h
    match l with
    | [] => simp [prependChunks_nil]
    | u :: rest =>
      rw [prependChunks_cons]
      have hrlen : (rest.drop 99).length ≤ n := by
        have hh : rest.length + 1 ≤ n + 1 := by simpa using h
        simp [List.length_drop]
        omega
      rw [ih (rest.drop 99) (i + 100) hrlen]
      have hN : ((u :: rest).length + 99) / 100 = ((rest.drop 99).length + 99) / 100 + 1 := by
        simp [List.length_drop]
        omega
      rw [hN, List.range_succ_eq_map]
      simp only [List.map_cons, List.map_map]
      refine List.cons_eq_cons.mpr ⟨by simp, ?_⟩
      apply List.map_congr_left
      intro k _
      simp only [Function.comp_apply, List.drop_drop, Nat.succ_eq_add_one]
      have h2 : i + 100 + 100 * k = i + 100 * (k + 1) := by omega
      rw [h2]
      have h1 : 100 * (k + 1) = (99 + 100 * k) + 1 := by omega
      rw [h1, List.drop_succ_cons]

lemma appendChunks_eq_range :
    ∀ (n : Nat) (l : List String), l.length ≤ n →
      appendChunks l = (List.range ((l.length + 99) / 100)).map
        (fun k => WriteCall.append ((l.drop (100 * k)).take 100)) := by
  intro n
  induction n with
  | zero =>
    intro l h
    have hl : l = [] := List.eq_nil_of_length_eq_zero (Nat.le_zero.mp h)
    subst hl
    simp [appendChunks_nil]
  | succ n ih =>
    intro l h
    match l with
    | [] => simp [appendChunks_nil]
    | u :: rest =>
      rw [appendChunks_cons]
      have hrlen : (rest.drop 99).length ≤ n := by
        have hh : rest.length + 1 ≤ n + 1 := by simpa using h
        simp [List.length_drop]
        omega
      rw [ih (rest.drop 99) hrlen]
      have hN : ((u :: rest).length + 99) / 100 = ((rest.drop 99).length + 99) / 100 + 1 := by
        simp [List.length_drop]
        omega
      rw [hN, List.range_succ_eq_map]
      simp only [List.map_cons, List.map_map]
      refine List.cons_eq_cons.mpr ⟨by simp, ?_⟩
      apply List.map_congr_left
      intro k _
      simp only [Function.comp_apply, List.drop_drop, Nat.succ_eq_add_one]
      have h1 : 100 * (k + 1) = (99 + 100 * k) + 1 := by omega
      rw [h1, List.drop_succ_cons]

lemma sublist_eq_of_mem_iff {α : Type} {L l₁ l₂ : List α} (hN : L.Nodup)
    (h₁ : l₁ <+ L) (h₂ : l₂ <+ L) (hm : ∀ u, u ∈ l₁ ↔ u ∈ l₂) : l₁ = l₂ := by
  induction L generalizing l₁ l₂ with
  | nil =>
    rw [List.sublist_nil.mp h₁, List.sublist_nil.mp h₂]
  | cons a L ih =>
    have haL : a ∉ L := (List.nodup_cons.mp hN).1
    have hN' : L.Nodup := (List.nodup_cons.mp hN).2
    rcases List.sublist_cons_iff.mp h₁ with hs₁ | ⟨t₁, rfl, hs₁⟩
    · rcases List.sublist_cons_iff.mp h₂ with hs₂ | ⟨t₂, rfl, hs₂⟩
      · exact ih hN' hs₁ hs₂ hm
      · exact absurd (hs₁.subset ((hm a).mpr (List.mem_cons_self a t₂))) haL
    · rcases List.sublist_cons_iff.mp h₂ with hs₂ | ⟨t₂, rfl, hs₂⟩
      · exact absurd (hs₂.subset ((hm a).mp (List.mem_cons_self a t₁))) haL
      · have hm' : ∀ u, u ∈ t₁ ↔ u ∈ t₂ := by
          intro u
          constructor
          · intro hu
            rcases List.mem_cons.mp ((hm u).mp (List.mem_cons_of_mem a hu)) with he | hu₂
            · exact absurd (hs₁.subset (he ▸ hu)) haL
            · exact hu₂
          · intro hu
            rcases List.mem_cons.mp ((hm u).mpr (List.mem_cons_of_mem a hu)) with he | hu₁
            · exact absurd (hs₂.subset (he ▸ hu)) haL
            · exact hu₁
        rw [ih hN' hs₁ hs₂ hm']

lemma mem_new_uris (uris snap : List String) (u : String) :
    u ∈ new_uris uris snap ↔ u ∈ uris ∧ u ∉ snap := by
  simp [new_uris]

/-! ## Claims -/

/-- C1: the insert plan computed by refresh is exactly the subsequence of the
candidate batch uris not present in the snapshot, in batch order: it is a
sublist of the batch, its members are exactly the batch uris outside the
snapshot, it is the unique such sublist when the batch uris are pairwise
distinct, and two snapshots with the same members (in any order) yield the
same plan. -/
theorem C1_insert_plan (uris snap : List String) :
    new_uris uris snap <+ uris
    ∧ (∀ u, u ∈ new_uris uris snap ↔ u ∈ uris ∧ u ∉ snap)
    ∧ (∀ l, uris.Nodup → l <+ uris → (∀ u, u ∈ l ↔ u ∈ uris ∧ u ∉ snap) →
        l = new_uris uris snap)
    ∧ (∀ snap2, (∀ u, u ∈ snap ↔ u ∈ snap2) →
        new_uris uris snap = new_uris uris snap2) := by
  refine ⟨List.filter_sublist uris, mem_new_uris uris snap, ?_, ?_⟩
  · intro l hnd hsub hmem
    exact sublist_eq_of_mem_iff hnd hsub (List.filter_sublist uris)
      (fun u => (hmem u).trans (mem_new_uris uris snap u).symm)
  · intro snap2 hiff
    apply List.filter_congr
    intro u _
    simp [hiff u]

/-- Witness for C1 at concrete inputs: the uniqueness clause at the plan
["a"] of batch ["a"] against the empty snapshot, and snapshot-order
independence for the snapshots ["b"] and ["b","b"]. -/
theorem C1_insert_plan_witness :
    (["a"] : List String) = new_uris ["a"] []
    ∧ new_uris ["a", "b"] ["b"] = new_uris ["a", "b"] ["b", "b"] :=
  ⟨(C1_insert_plan ["a"] []).2.2.1 ["a"] (by decide) (List.Sublist.refl _) (by simp),
   (C1_insert_plan ["a", "b"] ["b"]).2.2.2 ["b", "b"] (by simp)⟩

/-- C2: after the first insert plan is prepended to the snapshot (by the
write calls prepend_items issues), rerunning the diff with the same batch
produces an empty plan. -/
theorem C2_dedup_idempotent (uris snap : List String) :
    new_uris uris (applyCalls (prepend_items (new_uris uris snap)) snap) = [] := by
  rw [applyCalls_prepend_items]
  rw [new_uris, List.filter_eq_nil_iff]
  intro u hu
  simp only [decide_eq_true_eq, Decidable.not_not]
  by_cases hs : u ∈ snap
  · exact List.mem_append_right _ hs
  · exact List.mem_append_left _ ((mem_new_uris uris snap u).mpr ⟨hu, hs⟩)

/-- C5: prepend_items issues ceil(N/100) insert calls, the k-th carrying the
k-th chunk of at most 100 uris at position 100·k, and applying the calls
yields the uris followed by the playlist's previous contents. -/
theorem C5_prepend_plan (uris pl : List String) :
    applyCalls (prepend_items uris) pl = uris ++ pl
    ∧ ((prepend_items uris).length = (uris.length + 99) / 100
        ∧ prepend_items uris = (List.range ((uris.length + 99) / 100)).map
            (fun k => WriteCall.insertAt (100 * k) ((uris.drop (100 * k)).take 100)))
    ∧ (∀ k : Nat, ((uris.drop (100 * k)).take 100).length ≤ 100) := by
  have hrange : prepend_items uris = (List.range ((uris.length + 99) / 100)).map
      (fun k => WriteCall.insertAt (100 * k) ((uris.drop (100 * k)).take 100)) := by
    have h := prependChunks_eq_range uris.length uris 0 (Nat.le_refl _)
    simpa [prepend_items] using h
  refine ⟨applyCalls_prepend_items uris pl, ⟨?_, hrange⟩, ?_⟩
  · rw [hrange]
    simp
  · intro k
    simp only [List.length_take]
    omega

/-- C6: for an absent target playlist, refresh issues a create call with the
program's playlist name, the computed description and the configured
visibility, then writes the batch uris as one replace call with the first
chunk of at most 100 followed by append calls for the later 100-chunks,
ending with the playlist contents equal to the uris in order. -/
theorem C6_create_and_bulk_write (visibility desc : String) (uris pl : List String)
    (h : uris ≠ []) :
    refresh_create_call visibility desc
        = ⟨playlist_name, desc, visibility == "public"⟩
    ∧ set_playlist_items uris
        = WriteCall.replace (uris.take 100)
          :: (List.range (((uris.length - 100) + 99) / 100)).map
              (fun k => WriteCall.append ((uris.drop (100 + 100 * k)).take 100))
    ∧ (uris.take 100).length ≤ 100
    ∧ (set_playlist_items uris).countP isReplace = 1
    ∧ applyCalls (set_playlist_items uris) pl = uris := by
  have hshape : set_playlist_items uris
      = WriteCall.replace (uris.take 100)
        :: (List.range (((uris.length - 100) + 99) / 100)).map
            (fun k => WriteCall.append ((uris.drop (100 + 100 * k)).take 100)) := by
    rw [set_playlist_items, if_neg h,
      appendChunks_eq_range (uris.drop 100).length (uris.drop 100) (Nat.le_refl _)]
    simp [List.drop_drop, List.length_drop]
  refine ⟨rfl, hshape, ?_, ?_, applyCalls_set_playlist_items uris pl⟩
  · simp only [List.length_take]
    omega
  · rw [hshape]
    rw [List.countP_cons]
    have h1 : isReplace (WriteCall.replace (uris.take 100)) = true := rfl
    rw [h1]
    have h0 : (List.countP isReplace ((List.range (((uris.length - 100) + 99) / 100)).map
        (fun k => WriteCall.append ((uris.drop (100 + 100 * k)).take 100)))) = 0 := by
      rw [List.countP_eq_zero]
      intro c hc
      rcases List.mem_map.mp hc with ⟨k, _, rfl⟩
      simp [isReplace]
    rw [h0]
    simp

/-- Witness for C6 at a concrete nonempty uri list. -/
theorem C6_create_and_bulk_write_witness :
    applyCalls (set_playlist_items ["a"]) ["z"] = ["a"] :=
  (C6_create_and_bulk_write "public" "d" ["a"] ["z"] (by decide)).2.2.2.2

/-- C10: with an empty uri list, set_playlist_items still issues exactly one
replace call with an empty list, emptying the playlist, while prepend_items
issues no call and leaves the playlist unchanged. -/
theorem C10_empty_uris (pl : List String) :
    set_playlist_items [] = [WriteCall.replace []]
    ∧ applyCalls (set_playlist_items []) pl = []
    ∧ prepend_items [] = []
    ∧ applyCalls (prepend_items []) pl = pl := by
  refine ⟨rfl, rfl, ?_, ?_⟩
  · rw [prepend_items, prependChunks_nil]
  · rw [prepend_items, prependChunks_nil]
    rfl

/-- C4: _sort_by_recency returns a permutation of its input, descending in
the normalized date key, stably (equal keys keep their input order); the key
normalizes a year-precision date of length 4 to YYYY-01-01, a
month-precision date of length 7 to YYYY-MM-01, leaves day-precision dates
unchanged, and treats a missing release date as the empty string, which is
below every key and hence sorts last in descending order. -/
theorem C4_sort_by_recency (eps : List Episode) :
    List.Perm (sortByRecency eps) eps
    ∧ (sortByRecency eps).Pairwise (fun a b => sortKey b ≤ sortKey a)
    ∧ (∀ a b, [a, b] <+ eps → sortKey a = sortKey b → [a, b] <+ sortByRecency eps)
    ∧ (∀ ep rd, ep.release_date = some rd → ep.release_date_precision = some "year" →
        rd.length = 4 → sortKey ep = rd ++ "-01-01")
    ∧ (∀ ep rd, ep.release_date = some rd → ep.release_date_precision = some "month" →
        rd.length = 7 → sortKey ep = rd ++ "-01")
    ∧ (∀ ep rd, ep.release_date = some rd → ep.release_date_precision = some "day" →
        sortKey ep = rd)
    ∧ (∀ ep, ep.release_date = none →
        sortKey ep = "" ∧ ∀ e2, sortKey ep ≤ sortKey e2) := by
  have htrans : ∀ a b c : Episode,
      (fun a b => decide (sortKey b ≤ sortKey a)) a b →
      (fun a b => decide (sortKey b ≤ sortKey a)) b c →
      (fun a b => decide (sortKey b ≤ sortKey a)) a c := by
    intro a b c h1 h2
    simp only [decide_eq_true_eq] at h1 h2 ⊢
    exact le_trans h2 h1
  have htotal : ∀ a b : Episode,
      ((fun a b => decide (sortKey b ≤ sortKey a)) a b
        || (fun a b => decide (sortKey b ≤ sortKey a)) b a) := by
    intro a b
    simp only [Bool.or_eq_true, decide_eq_true_eq]
    exact le_total _ _
  refine ⟨List.mergeSort_perm eps _, ?_, ?_, ?_, ?_, ?_, ?_⟩
  · have hp := List.sorted_mergeSort htrans htotal eps
    exact hp.imp (fun h => by simpa using h)
  · intro a b hsub hk
    have hab : (fun a b => decide (sortKey b ≤ sortKey a)) a b = true := by
      simp only [decide_eq_true_eq]
      exact le_of_eq hk.symm
    exact List.pair_sublist_mergeSort htrans htotal hab hsub
  · intro ep rd h1 h2 hlen
    simp [sortKey, h1, h2, hlen]
  · intro ep rd h1 h2 hlen
    simp [sortKey, h1, h2, hlen]
  · intro ep rd h1 h2
    simp [sortKey, h1, h2]
  · intro ep h1
    have hk : sortKey ep = "" := by simp [sortKey, h1]
    refine ⟨hk, ?_⟩
    intro e2
    rw [hk, String.le_iff_toList_le]
    simp [String.toList]

/-- Witness for C4 at the spec's normalization examples and a stability pair
with equal day keys. -/
theorem C4_sort_by_recency_witness :
    sortKey ⟨some "u1", some "2024", some "year"⟩ = "2024-01-01"
    ∧ sortKey ⟨some "u2", some "2024-03", some "month"⟩ = "2024-03-01"
    ∧ sortKey ⟨some "u3", some "2024-03-15", some "day"⟩ = "2024-03-15"
    ∧ [(⟨some "u2", some "2024-03-15", some "day"⟩ : Episode),
        ⟨some "u3", some "2024-03-15", some "day"⟩]
        <+ sortByRecency [⟨some "u1", some "2024", some "year"⟩,
            ⟨some "u2", some "2024-03-15", some "day"⟩,
            ⟨some "u3", some "2024-03-15", some "day"⟩] :=
  ⟨(C4_sort_by_recency []).2.2.2.1 ⟨some "u1", some "2024", some "year"⟩ "2024"
      rfl rfl (by decide),
   (C4_sort_by_recency []).2.2.2.2.1 ⟨some "u2", some "2024-03", some "month"⟩ "2024-03"
      rfl rfl (by decide),
   (C4_sort_by_recency []).2.2.2.2.2.1 ⟨some "u3", some "2024-03-15", some "day"⟩
      "2024-03-15" rfl rfl,
   (C4_sort_by_recency [⟨some "u1", some "2024", some "year"⟩,
        ⟨some "u2", some "2024-03-15", some "day"⟩,
        ⟨some "u3", some "2024-03-15", some "day"⟩]).2.2.1 _ _
      (List.Sublist.cons _ (List.Sublist.refl _)) rfl⟩

/-- C7: in recency mode search_episodes asks the provider for
min(3·limit, 50) results, and whatever the provider returns, the returned
episode list after filtering, sorting and truncation has length at most
limit. -/
theorem C7_overfetch_and_cap (limit : Nat) (items : List (Option Episode)) :
    fetch_limit limit "recency" = min (3 * limit) 50
    ∧ ∀ sort_by, (search_episodes limit sort_by items).length ≤ limit := by
  constructor
  · simp [fetch_limit, Nat.mul_comm]
  · intro sort_by
    simp only [search_episodes, List.length_take]
    exact Nat.min_le_left _ _

lemma isPrefixOf_append (l : List Char) :
    ∀ (m k : List Char), l.isPrefixOf m = true → l.isPrefixOf (m ++ k) = true := by
  induction l with
  | nil => intro m k _; simp [List.isPrefixOf]
  | cons a as ih =>
    intro m k h
    match m with
    | [] => simp [List.isPrefixOf] at h
    | b :: bs =>
      simp only [List.isPrefixOf, Bool.and_eq_true] at h
      simp only [List.cons_append, List.isPrefixOf, Bool.and_eq_true]
      exact ⟨h.1, ih bs k h.2⟩

lemma containsSub_nil (l : List Char) : containsSub l [] = true := by
  cases l <;> simp [containsSub, List.isPrefixOf]

lemma containsSub_append_left (a b sub : List Char) (h : containsSub a sub = true) :
    containsSub (a ++ b) sub = true := by
  induction a with
  | nil =>
    have hs : sub = [] := by simpa [containsSub, List.isEmpty_iff] using h
    subst hs
    exact containsSub_nil _
  | cons c rest ih =>
    simp only [containsSub, Bool.or_eq_true] at h
    rcases h with h | h
    · simp only [List.cons_append, containsSub, Bool.or_eq_true]
      left
      exact isPrefixOf_append sub (c :: rest) b h
    · simp only [List.cons_append, containsSub, Bool.or_eq_true]
      right
      exact ih h

/-- C8 (amended): cmd_refresh dispatches a wrapped provider error on the
substring "403" of its message: every 403-status error aborts with the
allowlist remediation message, and an error whose wrapped message does not
contain "403" is propagated as the wrapped message, which carries the
method, path, and the provider detail exactly when one is available. -/
theorem C8_amended_error_dispatch (code : Nat) (method path detail : String) :
    (code = 403 →
      refresh_error_outcome code method path detail
        = RefreshErrorOutcome.allowlistExit
            ("Error: " ++ spotify_error_msg code method path detail ++ remediation_text))
    ∧ (strContains (spotify_error_msg code method path detail) "403" = false →
      refresh_error_outcome code method path detail
        = RefreshErrorOutcome.propagate (spotify_error_msg code method path detail))
    ∧ (detail ≠ "" → spotify_error_msg code method path detail
        = "Spotify " ++ toString code ++ " on " ++ method ++ " " ++ path ++ (": " ++ detail))
    ∧ (detail = "" → spotify_error_msg code method path detail
        = "Spotify " ++ toString code ++ " on " ++ method ++ " " ++ path) := by
  refine ⟨?_, ?_, ?_, ?_⟩
  · intro hc
    subst hc
    have hmsg : strContains (spotify_error_msg 403 method path detail) "403" = true := by
      unfold strContains spotify_error_msg
      simp only [String.data_append]
      apply containsSub_append_left
      apply containsSub_append_left
      apply containsSub_append_left
      apply containsSub_append_left
      decide
    simp [refresh_error_outcome, hmsg]
  · intro h
    simp [refresh_error_outcome, h]
  · intro h
    simp [spotify_error_msg, h]
  · intro h
    simp [spotify_error_msg, h]

/-- Witness for C8: a true 403 triggers the allowlist exit, while a 500 on a
path free of "403" is propagated wrapped, with and without detail. -/
theorem C8_amended_error_dispatch_witness :
    refresh_error_outcome 403 "PUT" "/playlists/p1/items" "x"
      = RefreshErrorOutcome.allowlistExit
          ("Error: " ++ spotify_error_msg 403 "PUT" "/playlists/p1/items" "x"
            ++ remediation_text)
    ∧ refresh_error_outcome 500 "GET" "/search" ""
      = RefreshErrorOutcome.propagate (spotify_error_msg 500 "GET" "/search" "")
    ∧ spotify_error_msg 403 "PUT" "/playlists/p1/items" "x"
      = "Spotify " ++ toString (403 : Nat) ++ " on " ++ "PUT" ++ " " ++ "/playlists/p1/items"
        ++ (": " ++ "x")
    ∧ spotify_error_msg 500 "GET" "/search" ""
      = "Spotify " ++ toString (500 : Nat) ++ " on " ++ "GET" ++ " " ++ "/search" :=
  ⟨(C8_amended_error_dispatch 403 "PUT" "/playlists/p1/items" "x").1 rfl,
   (C8_amended_error_dispatch 500 "GET" "/search" "").2.1 (by decide),
   (C8_amended_error_dispatch 403 "PUT" "/playlists/p1/items" "x").2.2.1 (by decide),
   (C8_amended_error_dispatch 500 "GET" "/search" "").2.2.2 rfl⟩

set_option maxRecDepth 8192 in
/-- Counterexample to C8 as stated: a 500-status error on a path that
happens to contain the digits "403" is not propagated — it takes the
allowlist exit, although its status is not 403. -/
theorem C8_counterexample_substring_dispatch :
    refresh_error_outcome 500 "PUT" "/playlists/p403/items" ""
      = RefreshErrorOutcome.allowlistExit
          ("Error: " ++ spotify_error_msg 500 "PUT" "/playlists/p403/items" ""
            ++ remediation_text)
    ∧ (500 : Nat) ≠ 403 := by
  constructor
  · decide
  · decide

/-- C9: refresh updates an existing playlist's metadata passing only the
description — the request body has no name field — so applying the update
leaves the playlist name unchanged and sets the description. -/
theorem C9_update_keeps_name (desc : String) (m : PlaylistMeta) :
    refresh_update_call desc = some ⟨none, some desc⟩
    ∧ (applyUpdate m (refresh_update_call desc)).name = m.name
    ∧ (applyUpdate m (refresh_update_call desc)).description = desc := by
  refine ⟨?_, ?_, ?_⟩ <;>
    simp [refresh_update_call, update_playlist_details, applyUpdate]

lemma batchUris_append (l₁ l₂ : List TaggedEp) :
    batchUris (l₁ ++ l₂) = batchUris l₁ ++ batchUris l₂ := by
  simp [batchUris]

lemma truthyIn_cons {u : String} {ep : Episode} {eps : List Episode}
    (h : truthyIn u eps) : truthyIn u (ep :: eps) := by
  rcases h with ⟨hne, ep', hmem, huri⟩
  exact ⟨hne, ep', List.mem_cons_of_mem _ hmem, huri⟩

lemma truthyIn_head {u : String} {ep : Episode} (eps : List Episode)
    (hne : u ≠ "") (huri : ep.uri = some u) : truthyIn u (ep :: eps) :=
  ⟨hne, ep, List.mem_cons_self _ _, huri⟩

lemma individualStep_acc2 (p : Nat) (t : String) :
    ∀ (eps : List Episode) (seen : List String) (acc₁ acc₂ : List TaggedEp) (added : Nat),
      (individualStep p t eps seen (acc₁ ++ acc₂) added).1
          = (individualStep p t eps seen acc₂ added).1
      ∧ (individualStep p t eps seen (acc₁ ++ acc₂) added).2
          = acc₁ ++ (individualStep p t eps seen acc₂ added).2 := by
  intro eps
  induction eps with
  | nil =>
    intro seen acc₁ acc₂ added
    simp [individualStep]
  | cons ep rest ih =>
    intro seen acc₁ acc₂ added
    cases huri : ep.uri with
    | none =>
      simp only [individualStep, huri]
      exact ih seen acc₁ acc₂ added
    | some u =>
      simp only [individualStep, huri]
      by_cases hcond : u ≠ "" ∧ u ∉ seen
      · rw [if_pos hcond, if_pos hcond]
        by_cases hbreak : added + 1 ≥ p
        · rw [if_pos hbreak, if_pos hbreak]
          simp [List.append_assoc]
        · rw [if_neg hbreak, if_neg hbreak]
          rw [List.append_assoc]
          exact ih (u :: seen) acc₁ (acc₂ ++ [⟨t, ep⟩]) (added + 1)
      · rw [if_neg hcond, if_neg hcond]
        exact ih seen acc₁ acc₂ added

lemma individualStep_acc (p : Nat) (t : String) (eps : List Episode) (seen : List String)
    (acc : List TaggedEp) (added : Nat) :
    (individualStep p t eps seen acc added).1 = (individualStep p t eps seen [] added).1
    ∧ (individualStep p t eps seen acc added).2
        = acc ++ (individualStep p t eps seen [] added).2 := by
  have h := individualStep_acc2 p t eps seen acc [] added
  simpa using h

lemma individualStep_batchUris_mono (p : Nat) (t : String) (eps : List Episode)
    (seen : List String) (acc : List TaggedEp) (added : Nat) (u : String)
    (h : u ∈ batchUris acc) :
    u ∈ batchUris (individualStep p t eps seen acc added).2 := by
  rw [(individualStep_acc p t eps seen acc added).2, batchUris_append]
  exact List.mem_append_left _ h

lemma individualStep_seen_mono (p : Nat) (t : String) :
    ∀ (eps : List Episode) (seen : List String) (acc : List TaggedEp) (added : Nat)
      (u : String), u ∈ seen → u ∈ (individualStep p t eps seen acc added).1 := by
  intro eps
  induction eps with
  | nil =>
    intro seen acc added u hu
    simpa [individualStep] using hu
  | cons ep rest ih =>
    intro seen acc added u hu
    cases huri : ep.uri with
    | none =>
      simp only [individualStep, huri]
      exact ih _ _ _ u hu
    | some u₀ =>
      simp only [individualStep, huri]
      by_cases hcond : u₀ ≠ "" ∧ u₀ ∉ seen
      · rw [if_pos hcond]
        by_cases hbreak : added + 1 ≥ p
        · rw [if_pos hbreak]
          exact List.mem_cons_of_mem _ hu
        · rw [if_neg hbreak]
          exact ih _ _ _ u (List.mem_cons_of_mem _ hu)
      · rw [if_neg hcond]
        exact ih _ _ _ u hu

lemma individualStep_seen_sub (p : Nat) (t : String) :
    ∀ (eps : List Episode) (seen : List String) (acc : List TaggedEp) (added : Nat)
      (u : String), u ∈ (individualStep p t eps seen acc added).1 →
      u ∈ seen ∨ truthyIn u eps := by
  intro eps
  induction eps with
  | nil =>
    intro seen acc added u hu
    exact Or.inl (by simpa [individualStep] using hu)
  | cons ep rest ih =>
    intro seen acc added u hu
    cases huri : ep.uri with
    | none =>
      simp only [individualStep, huri] at hu
      rcases ih _ _ _ u hu with h | h
      · exact Or.inl h
      · exact Or.inr (truthyIn_cons h)
    | some u₀ =>
      simp only [individualStep, huri] at hu
      by_cases hcond : u₀ ≠ "" ∧ u₀ ∉ seen
      · rw [if_pos hcond] at hu
        by_cases hbreak : added + 1 ≥ p
        · rw [if_pos hbreak] at hu
          rcases List.mem_cons.mp hu with rfl | h
          · exact Or.inr (truthyIn_head rest hcond.1 huri)
          · exact Or.inl h
        · rw [if_neg hbreak] at hu
          rcases ih _ _ _ u hu with h | h
          · rcases List.mem_cons.mp h with rfl | h2
            · exact Or.inr (truthyIn_head rest hcond.1 huri)
            · exact Or.inl h2
          · exact Or.inr (truthyIn_cons h)
      · rw [if_neg hcond] at hu
        rcases ih _ _ _ u hu with h | h
        · exact Or.inl h
        · exact Or.inr (truthyIn_cons h)

lemma individualStep_fresh (p : Nat) (t : String) :
    ∀ (eps : List Episode) (seen : List String) (acc : List TaggedEp) (added : Nat)
      (e : TaggedEp), e ∈ (individualStep p t eps seen acc added).2 →
      e ∈ acc ∨ (e.topic = t ∧ ∃ u, e.ep.uri = some u ∧ u ≠ "" ∧ u ∉ seen
        ∧ u ∈ (individualStep p t eps seen acc added).1 ∧ truthyIn u eps) := by
  intro eps
  induction eps with
  | nil =>
    intro seen acc added e he
    exact Or.inl (by simpa [individualStep] using he)
  | cons ep rest ih =>
    intro seen acc added e he
    cases huri : ep.uri with
    | none =>
      simp only [individualStep, huri] at he ⊢
      rcases ih _ _ _ e he with h | ⟨ht, u, h1, h2, h3, h4, h5⟩
      · exact Or.inl h
      · exact Or.inr ⟨ht, u, h1, h2, h3, h4, truthyIn_cons h5⟩
    | some u₀ =>
      simp only [individualStep, huri] at he ⊢
      by_cases hcond : u₀ ≠ "" ∧ u₀ ∉ seen
      · rw [if_pos hcond] at he ⊢
        by_cases hbreak : added + 1 ≥ p
        · rw [if_pos hbreak] at he ⊢
          rcases List.mem_append.mp he with h | h
          · exact Or.inl h
          · rcases List.mem_singleton.mp h with rfl
            exact Or.inr ⟨rfl, u₀, huri, hcond.1, hcond.2,
              List.mem_cons_self _ _, truthyIn_head rest hcond.1 huri⟩
        · rw [if_neg hbreak] at he ⊢
          rcases ih _ _ _ e he with h | ⟨ht, u, h1, h2, h3, h4, h5⟩
          · rcases List.mem_append.mp h with h | h
            · exact Or.inl h
            · rcases List.mem_singleton.mp h with rfl
              refine Or.inr ⟨rfl, u₀, huri, hcond.1, hcond.2, ?_,
                truthyIn_head rest hcond.1 huri⟩
              exact individualStep_seen_mono p t rest _ _ _ u₀ (List.mem_cons_self _ _)
          · refine Or.inr ⟨ht, u, h1, h2, ?_, h4, truthyIn_cons h5⟩
            intro hmem
            exact h3 (List.mem_cons_of_mem _ hmem)
      · rw [if_neg hcond] at he ⊢
        rcases ih _ _ _ e he with h | ⟨ht, u, h1, h2, h3, h4, h5⟩
        · exact Or.inl h
        · exact Or.inr ⟨ht, u, h1, h2, h3, h4, truthyIn_cons h5⟩

lemma individualStep_cap (p : Nat) (t : String) :
    ∀ (eps : List Episode) (seen : List String) (acc : List TaggedEp) (added : Nat),
      added < p →
      (individualStep p t eps seen acc added).2.length ≤ acc.length + (p - added) := by
  intro eps
  induction eps with
  | nil =>
    intro seen acc added _
    simp [individualStep]
  | cons ep rest ih =>
    intro seen acc added hlt
    cases huri : ep.uri with
    | none =>
      simp only [individualStep, huri]
      exact ih _ _ _ hlt
    | some u₀ =>
      simp only [individualStep, huri]
      by_cases hcond : u₀ ≠ "" ∧ u₀ ∉ seen
      · rw [if_pos hcond]
        by_cases hbreak : added + 1 ≥ p
        · rw [if_pos hbreak]
          simp only [List.length_append, List.length_singleton]
          omega
        · rw [if_neg hbreak]
          have h := ih (u₀ :: seen) (acc ++ [⟨t, ep⟩]) (added + 1) (by omega)
          simp only [List.length_append, List.length_singleton] at h
          omega
      · rw [if_neg hcond]
        exact ih _ _ _ hlt

lemma individualStep_contribution (p : Nat) (t : String) (eps : List Episode)
    (seen : List String) (acc : List TaggedEp) (h : eps.length ≤ 2 * p) :
    (individualStep p t eps seen acc 0).2.length ≤ acc.length + p := by
  by_cases hp : 0 < p
  · have hc := individualStep_cap p t eps seen acc 0 hp
    simpa using hc
  · have hp0 : p = 0 := by omega
    subst hp0
    have heps : eps = [] := List.eq_nil_of_length_eq_zero (by omega)
    subst heps
    simp [individualStep]

lemma individualStep_complete (p : Nat) (t : String) (u : String) :
    ∀ (eps : List Episode) (seen : List String) (acc : List TaggedEp) (added : Nat),
      eps.length + added ≤ p → truthyIn u eps → u ∉ seen →
      u ∈ batchUris (individualStep p t eps seen acc added).2
      ∧ u ∈ (individualStep p t eps seen acc added).1 := by
  intro eps
  induction eps with
  | nil =>
    intro seen acc added _ htr _
    rcases htr with ⟨_, ep', hmem, _⟩
    exact absurd hmem (List.not_mem_nil _)
  | cons ep rest ih =>
    intro seen acc added hlen htr hseen
    cases huri : ep.uri with
    | none =>
      have htr' : truthyIn u rest := by
        rcases htr with ⟨hne, ep', hmem, huri'⟩
        rcases List.mem_cons.mp hmem with rfl | hmem'
        · rw [huri] at huri'
          exact absurd huri' (by simp)
        · exact ⟨hne, ep', hmem', huri'⟩
      simp only [individualStep, huri]
      exact ih seen acc added (by simp at hlen; omega) htr' hseen
    | some u₀ =>
      simp only [individualStep, huri]
      by_cases hcond : u₀ ≠ "" ∧ u₀ ∉ seen
      · by_cases hu : u = u₀
        · subst hu
          rw [if_pos hcond]
          by_cases hbreak : added + 1 ≥ p
          · rw [if_pos hbreak]
            constructor
            · rw [batchUris_append]
              refine List.mem_append_right _ ?_
              simp [batchUris, huri]
            · exact List.mem_cons_self _ _
          · rw [if_neg hbreak]
            constructor
            · refine individualStep_batchUris_mono p t rest (u :: seen) _ (added + 1) u ?_
              rw [batchUris_append]
              refine List.mem_append_right _ ?_
              simp [batchUris, huri]
            · exact individualStep_seen_mono p t rest _ _ _ u (List.mem_cons_self _ _)
        · have htr' : truthyIn u rest := by
            rcases htr with ⟨hne, ep', hmem, huri'⟩
            rcases List.mem_cons.mp hmem with rfl | hmem'
            · rw [huri] at huri'
              exact absurd (Option.some_inj.mp huri').symm hu
            · exact ⟨hne, ep', hmem', huri'⟩
          have hr1 : 1 ≤ rest.length := by
            rcases htr' with ⟨_, ep', hmem, _⟩
            cases rest with
            | nil => exact absurd hmem (List.not_mem_nil _)
            | cons _ _ => simp
          rw [if_pos hcond]
          by_cases hbreak : added + 1 ≥ p
          · exfalso
            simp at hlen
            omega
          · rw [if_neg hbreak]
            refine ih (u₀ :: seen) (acc ++ [⟨t, ep⟩]) (added + 1)
              (by simp at hlen; omega) htr' ?_
            intro hmem
            rcases List.mem_cons.mp hmem with h | h
            · exact hu h
            · exact hseen h
      · have hu : u ≠ u₀ := by
          intro h
          subst h
          exact hcond ⟨htr.1, hseen⟩
        have htr' : truthyIn u rest := by
          rcases htr with ⟨hne, ep', hmem, huri'⟩
          rcases List.mem_cons.mp hmem with rfl | hmem'
          · rw [huri] at huri'
            exact absurd (Option.some_inj.mp huri').symm hu
          · exact ⟨hne, ep', hmem', huri'⟩
        rw [if_neg hcond]
        exact ih seen acc added (by simp at hlen; omega) htr' hseen

lemma individualStep_inv (p : Nat) (t : String) :
    ∀ (eps : List Episode) (seen : List String) (acc : List TaggedEp) (added : Nat),
      (batchUris acc).Nodup →
      (∀ u, u ∈ batchUris acc → u ∈ seen) →
      (batchUris (individualStep p t eps seen acc added).2).Nodup
      ∧ (∀ u, u ∈ batchUris (individualStep p t eps seen acc added).2 →
          u ∈ (individualStep p t eps seen acc added).1) := by
  intro eps
  induction eps with
  | nil =>
    intro seen acc added hnd hsub
    simp only [individualStep]
    exact ⟨hnd, hsub⟩
  | cons ep rest ih =>
    intro seen acc added hnd hsub
    cases huri : ep.uri with
    | none =>
      simp only [individualStep, huri]
      exact ih seen acc added hnd hsub
    | some u₀ =>
      simp only [individualStep, huri]
      have hnew : u₀ ≠ "" ∧ u₀ ∉ seen → (batchUris (acc ++ [⟨t, ep⟩])).Nodup
          ∧ (∀ u, u ∈ batchUris (acc ++ [⟨t, ep⟩]) → u ∈ u₀ :: seen) := by
        intro hcond
        constructor
        · rw [batchUris_append]
          have hb : batchUris [(⟨t, ep⟩ : TaggedEp)] = [u₀] := by simp [batchUris, huri]
          rw [hb]
          rw [List.nodup_append]
          refine ⟨hnd, List.nodup_singleton _, ?_⟩
          intro x hx
          simp only [List.mem_singleton]
          intro hx0
          subst hx0
          exact hcond.2 (hsub x hx)
        · intro u hu
          rw [batchUris_append] at hu
          rcases List.mem_append.mp hu with h | h
          · exact List.mem_cons_of_mem _ (hsub u h)
          · have hb : batchUris [(⟨t, ep⟩ : TaggedEp)] = [u₀] := by simp [batchUris, huri]
            rw [hb] at h
            rcases List.mem_singleton.mp h with rfl
            exact List.mem_cons_self _ _
      by_cases hcond : u₀ ≠ "" ∧ u₀ ∉ seen
      · rw [if_pos hcond]
        by_cases hbreak : added + 1 ≥ p
        · rw [if_pos hbreak]
          exact hnew hcond
        · rw [if_neg hbreak]
          exact ih (u₀ :: seen) (acc ++ [⟨t, ep⟩]) (added + 1)
            (hnew hcond).1 (hnew hcond).2
      · rw [if_neg hcond]
        exact ih seen acc added hnd hsub

lemma mem_batchUris {u : String} {l : List TaggedEp} :
    u ∈ batchUris l ↔ ∃ e, e ∈ l ∧ e.ep.uri = some u := by
  simp [batchUris, List.mem_filterMap]

lemma individualLoop_acc2 (p : Nat) :
    ∀ (rs : List (String × List Episode)) (seen : List String) (acc₁ acc₂ : List TaggedEp),
      individualLoop p rs seen (acc₁ ++ acc₂) = acc₁ ++ individualLoop p rs seen acc₂ := by
  intro rs
  induction rs with
  | nil =>
    intro seen acc₁ acc₂
    simp [individualLoop]
  | cons pr rest ih =>
    rcases pr with ⟨t, eps⟩
    intro seen acc₁ acc₂
    simp only [individualLoop]
    rw [(individualStep_acc2 p t eps seen acc₁ acc₂ 0).1,
      (individualStep_acc2 p t eps seen acc₁ acc₂ 0).2]
    exact ih _ acc₁ _

lemma individualLoop_acc (p : Nat) (rs : List (String × List Episode)) (seen : List String)
    (acc : List TaggedEp) :
    individualLoop p rs seen acc = acc ++ individualLoop p rs seen [] := by
  have h := individualLoop_acc2 p rs seen acc []
  simpa using h

lemma individualLoop_nodup (p : Nat) :
    ∀ (rs : List (String × List Episode)) (seen : List String) (acc : List TaggedEp),
      (batchUris acc).Nodup → (∀ u, u ∈ batchUris acc → u ∈ seen) →
      (batchUris (individualLoop p rs seen acc)).Nodup := by
  intro rs
  induction rs with
  | nil =>
    intro seen acc hnd _
    simpa [individualLoop] using hnd
  | cons pr rest ih =>
    rcases pr with ⟨t, eps⟩
    intro seen acc hnd hsub
    simp only [individualLoop]
    have hinv := individualStep_inv p t eps seen acc 0 hnd hsub
    exact ih _ _ hinv.1 hinv.2

lemma individualLoop_fresh (p : Nat) :
    ∀ (rs : List (String × List Episode)) (seen : List String) (acc : List TaggedEp)
      (e : TaggedEp), e ∈ individualLoop p rs seen acc →
      e ∈ acc ∨ (∃ u, e.ep.uri = some u ∧ u ≠ "" ∧ u ∉ seen) := by
  intro rs
  induction rs with
  | nil =>
    intro seen acc e he
    exact Or.inl (by simpa [individualLoop] using he)
  | cons pr rest ih =>
    rcases pr with ⟨t, eps⟩
    intro seen acc e he
    simp only [individualLoop] at he
    rcases ih _ _ e he with h | ⟨u, h1, h2, h3⟩
    · rcases individualStep_fresh p t eps seen acc 0 e h with h | ⟨_, u, h1, h2, h3, _, _⟩
      · exact Or.inl h
      · exact Or.inr ⟨u, h1, h2, h3⟩
    · refine Or.inr ⟨u, h1, h2, ?_⟩
      intro hmem
      exact h3 (individualStep_seen_mono p t eps seen acc 0 u hmem)

lemma individualLoop_attribution (p : Nat) (u : String) :
    ∀ (rs₁ : List (String × List Episode)) (tk : String) (ek : List Episode)
      (rs₂ : List (String × List Episode)) (seen : List String) (acc : List TaggedEp),
      (∀ pr ∈ rs₁, ¬ truthyIn u pr.2) → truthyIn u ek → ek.length ≤ p → u ∉ seen →
      (∀ e ∈ acc, e.ep.uri ≠ some u) →
      ((∃ e ∈ individualLoop p (rs₁ ++ (tk, ek) :: rs₂) seen acc,
          e.ep.uri = some u ∧ e.topic = tk)
        ∧ (∀ e ∈ individualLoop p (rs₁ ++ (tk, ek) :: rs₂) seen acc,
            e.ep.uri = some u → e.topic = tk)) := by
  intro rs₁
  induction rs₁ with
  | nil =>
    intro tk ek rs₂ seen acc _ htr hcap hseen hacc
    simp only [List.nil_append, individualLoop]
    have hcomp := individualStep_complete p tk u ek seen acc 0 (by omega) htr hseen
    constructor
    · rcases mem_batchUris.mp hcomp.1 with ⟨e, heA, huri⟩
      refine ⟨e, ?_, huri, ?_⟩
      · rw [individualLoop_acc p rs₂ _ _]
        exact List.mem_append_left _ heA
      · rcases individualStep_fresh p tk ek seen acc 0 e heA with h | ⟨ht, _⟩
        · exact absurd huri (hacc e h)
        · exact ht
    · intro e he huri
      rcases individualLoop_fresh p rs₂ _ _ e he with h | ⟨u', h1, h2, h3⟩
      · rcases individualStep_fresh p tk ek seen acc 0 e h with h | ⟨ht, _⟩
        · exact absurd huri (hacc e h)
        · exact ht
      · rw [huri] at h1
        rcases Option.some_inj.mp h1 with rfl
        exact absurd hcomp.2 h3
  | cons pr rs₁ ih =>
    rcases pr with ⟨t₀, e₀⟩
    intro tk ek rs₂ seen acc hrs htr hcap hseen hacc
    simp only [List.cons_append, individualLoop]
    have hseen' : u ∉ (individualStep p t₀ e₀ seen acc 0).1 := by
      intro hmem
      rcases individualStep_seen_sub p t₀ e₀ seen acc 0 u hmem with h | h
      · exact hseen h
      · exact hrs (t₀, e₀) (List.mem_cons_self _ _) h
    have hacc' : ∀ e ∈ (individualStep p t₀ e₀ seen acc 0).2, e.ep.uri ≠ some u := by
      intro e he huri
      rcases individualStep_fresh p t₀ e₀ seen acc 0 e he with h | ⟨_, u', h1, _, _, _, h5⟩
      · exact hacc e h huri
      · rw [huri] at h1
        rcases Option.some_inj.mp h1 with rfl
        exact hrs (t₀, e₀) (List.mem_cons_self _ _) h5
    exact ih tk ek rs₂ _ _ (fun pr hpr => hrs pr (List.mem_cons_of_mem _ hpr))
      htr hcap hseen' hacc'

lemma combinedLoop_fresh :
    ∀ (eps : List Episode) (seen : List String) (acc : List TaggedEp) (e : TaggedEp),
      e ∈ combinedLoop eps seen acc →
      e ∈ acc ∨ (e.topic = "combined" ∧ ∃ u, e.ep.uri = some u ∧ u ≠ "" ∧ u ∉ seen) := by
  intro eps
  induction eps with
  | nil =>
    intro seen acc e he
    exact Or.inl (by simpa [combinedLoop] using he)
  | cons ep rest ih =>
    intro seen acc e he
    cases huri : ep.uri with
    | none =>
      simp only [combinedLoop, huri] at he
      exact ih _ _ e he
    | some u₀ =>
      simp only [combinedLoop, huri] at he
      by_cases hcond : u₀ ≠ "" ∧ u₀ ∉ seen
      · rw [if_pos hcond] at he
        rcases ih _ _ e he with h | ⟨ht, u, h1, h2, h3⟩
        · rcases List.mem_append.mp h with h | h
          · exact Or.inl h
          · rcases List.mem_singleton.mp h with rfl
            exact Or.inr ⟨rfl, u₀, huri, hcond.1, hcond.2⟩
        · refine Or.inr ⟨ht, u, h1, h2, ?_⟩
          intro hmem
          exact h3 (List.mem_cons_of_mem _ hmem)
      · rw [if_neg hcond] at he
        exact ih _ _ e he

lemma combinedLoop_nodup :
    ∀ (eps : List Episode) (seen : List String) (acc : List TaggedEp),
      (batchUris acc).Nodup → (∀ u, u ∈ batchUris acc → u ∈ seen) →
      (batchUris (combinedLoop eps seen acc)).Nodup := by
  intro eps
  induction eps with
  | nil =>
    intro seen acc hnd _
    simpa [combinedLoop] using hnd
  | cons ep rest ih =>
    intro seen acc hnd hsub
    cases huri : ep.uri with
    | none =>
      simp only [combinedLoop, huri]
      exact ih _ _ hnd hsub
    | some u₀ =>
      simp only [combinedLoop, huri]
      by_cases hcond : u₀ ≠ "" ∧ u₀ ∉ seen
      · rw [if_pos hcond]
        refine ih _ _ ?_ ?_
        · rw [batchUris_append]
          have hb : batchUris [(⟨"combined", ep⟩ : TaggedEp)] = [u₀] := by
            simp [batchUris, huri]
          rw [hb, List.nodup_append]
          refine ⟨hnd, List.nodup_singleton _, ?_⟩
          intro x hx
          simp only [List.mem_singleton]
          intro hx0
          subst hx0
          exact hcond.2 (hsub x hx)
        · intro u hu
          rw [batchUris_append] at hu
          rcases List.mem_append.mp hu with h | h
          · exact List.mem_cons_of_mem _ (hsub u h)
          · have hb : batchUris [(⟨"combined", ep⟩ : TaggedEp)] = [u₀] := by
              simp [batchUris, huri]
            rw [hb] at h
            rcases List.mem_singleton.mp h with rfl
            exact List.mem_cons_self _ _
      · rw [if_neg hcond]
        exact ih _ _ hnd hsub

/-- C3 (amended): in both strategies the candidate batch has pairwise
distinct URIs and every entry carries a nonempty URI (results lacking one
are dropped); in individual mode a topic's pass over a result list of at
most 2·per_topic episodes appends at most per_topic entries; and a URI is
attributed to the first topic queried that surfaces it whenever no earlier
topic surfaces it and that topic's result list is within per_topic, so its
cap cannot cut processing before the URI is reached. -/
theorem C3_amended_batch (p : Nat) :
    (∀ rs, (batchUris (individualBatch p rs)).Nodup)
    ∧ (∀ rs (e : TaggedEp), e ∈ individualBatch p rs → ∃ u, e.ep.uri = some u ∧ u ≠ "")
    ∧ (∀ eps, (batchUris (combinedBatch eps)).Nodup)
    ∧ (∀ eps (e : TaggedEp), e ∈ combinedBatch eps →
        e.topic = "combined" ∧ ∃ u, e.ep.uri = some u ∧ u ≠ "")
    ∧ (∀ (t : String) (eps : List Episode) (seen : List String) (acc : List TaggedEp),
        eps.length ≤ 2 * p → (individualStep p t eps seen acc 0).2.length ≤ acc.length + p)
    ∧ (∀ (u : String) rs₁ (tk : String) (ek : List Episode) rs₂,
        (∀ pr ∈ rs₁, ¬ truthyIn u pr.2) → truthyIn u ek → ek.length ≤ p →
        (∃ e ∈ individualBatch p (rs₁ ++ (tk, ek) :: rs₂),
            e.ep.uri = some u ∧ e.topic = tk)
        ∧ (∀ e ∈ individualBatch p (rs₁ ++ (tk, ek) :: rs₂),
            e.ep.uri = some u → e.topic = tk)) := by
  refine ⟨?_, ?_, ?_, ?_, ?_, ?_⟩
  · intro rs
    exact individualLoop_nodup p rs [] [] (by simp [batchUris]) (by simp [batchUris])
  · intro rs e he
    rcases individualLoop_fresh p rs [] [] e he with h | ⟨u, h1, h2, _⟩
    · exact absurd h (List.not_mem_nil e)
    · exact ⟨u, h1, h2⟩
  · intro eps
    exact combinedLoop_nodup eps [] [] (by simp [batchUris]) (by simp [batchUris])
  · intro eps e he
    rcases combinedLoop_fresh eps [] [] e he with h | ⟨ht, u, h1, h2, _⟩
    · exact absurd h (List.not_mem_nil e)
    · exact ⟨ht, u, h1, h2⟩
  · intro t eps seen acc h
    exact individualStep_contribution p t eps seen acc h
  · intro u rs₁ tk ek rs₂ h1 h2 h3
    exact individualLoop_attribution p u rs₁ tk ek rs₂ [] [] h1 h2 h3
      (List.not_mem_nil u) (fun e he => absurd he (List.not_mem_nil e))

/-- Witness for C3 at concrete inputs: the per-topic cap at per_topic 2 on a
one-episode list, and first-topic attribution of the shared uri x when the
first topic's list fits within the cap. -/
theorem C3_amended_batch_witness :
    ((individualStep 2 "ai" [epX] [] [] 0).2.length
        ≤ List.length ([] : List TaggedEp) + 2)
    ∧ ((∃ e ∈ individualBatch 2 ([] ++ ("ai", [epX]) :: [("ml", [epX])]),
          e.ep.uri = some "x" ∧ e.topic = "ai")
        ∧ (∀ e ∈ individualBatch 2 ([] ++ ("ai", [epX]) :: [("ml", [epX])]),
            e.ep.uri = some "x" → e.topic = "ai")) :=
  ⟨(C3_amended_batch 2).2.2.2.2.1 "ai" [epX] [] [] (by decide),
   (C3_amended_batch 2).2.2.2.2.2 "x" [] "ai" [epX] [("ml", [epX])]
      (fun pr hpr => absurd hpr (List.not_mem_nil pr)) (by decide) (by decide)⟩

/-- Counterexample to C3 as stated: with per_topic 1, the first topic "ai"
surfaces uri x (its two-episode list is within the 2·per_topic search cap),
yet the batch attributes x to the later topic "ml", because the per-topic
cap breaks the "ai" pass after its first addition. -/
theorem C3_counterexample_cap_steals_attribution :
    individualBatch 1 [("ai", [epY, epX]), ("ml", [epX])]
      = [⟨"ai", epY⟩, ⟨"ml", epX⟩]
    ∧ epX.uri = some "x" ∧ truthyIn "x" [epY, epX] ∧ ("ml" : String) ≠ "ai" := by
  refine ⟨?_, rfl, ?_, ?_⟩
  · decide
  · decide
  · decide

end Playlister
